import Mathlib

/-!
# Verification of the Bifid cipher implementation (`BifidCipher.py`)

Shallow embedding of the repository's two source files. Strings are modelled
as `List Char` with ASCII case semantics (`Char.toUpper`, `Char.isAlphanum`
match Python's behaviour on the ASCII range, which is the range the cipher
operates on). A Python function that can raise, or that can return `None`
where a value is expected, is modelled with `Option`: `none` stands for the
abnormal outcome, and the doc comment of each definition says which one.
-/

set_option autoImplicit false

namespace Bifid

/-- `Coordinate`: an ordered pair of Python ints (`BifidCipher.py`, lines 8-12). -/
structure Coordinate where
  row : Int
  col : Int
deriving DecidableEq, Repr

namespace Coordinate

/-- Consecutive pairing loop of `Coordinate.from_list` (`for i in range(0, len(values), 2)`):
pairs elements two at a time, in order.  On odd-length input the trailing element is
unreachable because `from_list` checks parity first. -/
def pairUp : List Int → List Coordinate
  | a :: b :: rest => ⟨a, b⟩ :: pairUp rest
  | _ => []

/-- `Coordinate.from_list` (lines 14-30): raises `ValueError` (modelled `none`) when the
input list has odd length, otherwise pairs consecutive elements into coordinates. -/
def from_list (values : List Int) : Option (List Coordinate) :=
  if values.length % 2 ≠ 0 then none
  else some (pairUp values)

/-- `Coordinate.to_list` (lines 32-43): flattens coordinates to `[row, col, row, col, ...]`
in input order. -/
def to_list : List Coordinate → List Int
  | [] => []
  | c :: rest => c.row :: c.col :: to_list rest

end Coordinate

/-- The default 25-letter alphabet (`BifidCipher.ALPHABET`, line 52). -/
def ALPHABET : List Char := "ABCDEFGHIKLMNOPQRSTUVWXYZ".toList

/-- `BifidCipher._clean_input_string` (lines 90-104): remove the space character,
uppercase, replace `J` by `I`, then `re.sub` with the class of non-word characters
plus underscore — which keeps exactly the alphanumeric characters. -/
def cleanString (s : List Char) : List Char :=
  let s := s.filter (fun c => c ≠ ' ')
  let s := s.map Char.toUpper
  let s := s.map (fun c => if c = 'J' then 'I' else c)
  s.filter (fun c => c.isAlphanum)

/-- The key-cleaning pipeline of `_process_polybius_square` (lines 72-76):
`upper()`, delete every `J`, then `_clean_input_string`. -/
def cleanKey (s : List Char) : List Char :=
  cleanString (((s.map Char.toUpper).filter (fun c => c ≠ 'J')))

/-- `BifidCipher._process_polybius_square` (lines 58-88) for a caller-supplied key
(the `None`/random branch is out of scope of the claims): clean the key, raise
`ValueError` (modelled `none`) unless 25 characters remain, then slice the string
into the five rows `k[0:5] .. k[20:25]`. -/
def processPolybiusSquare (s : List Char) : Option (List (List Char)) :=
  let k := cleanKey s
  if k.length ≠ 25 then none
  else some [(k.drop 0).take 5, (k.drop 5).take 5, (k.drop 10).take 5,
             (k.drop 15).take 5, (k.drop 20).take 5]

/-- Inner loop of `_get_coordinate`: `enumerate` scan of one row, returning the
index of the first cell equal to the character. -/
def findIdxInRow : Nat → List Char → Char → Option Nat
  | _, [], _ => none
  | i, c :: cs, ch => if c = ch then some i else findIdxInRow (i + 1) cs ch

/-- Outer loop of `_get_coordinate` over the enumerated rows. -/
def getCoordinateAux : Nat → List (List Char) → Char → Option Coordinate
  | _, [], _ => none
  | r, row :: rest, ch =>
    match findIdxInRow 0 row ch with
    | some cidx => some ⟨r, cidx⟩
    | none => getCoordinateAux (r + 1) rest ch

/-- `BifidCipher._get_coordinate` (lines 106-121) at a single character (so the
length-one `ValueError` guard never fires): row-major scan for the first matching
cell; when the character occurs nowhere the loop falls through and the function
returns Python `None`, modelled `none` — no exception is raised on this path. -/
def getCoordinate (grid : List (List Char)) (ch : Char) : Option Coordinate :=
  getCoordinateAux 0 grid ch

/-- Python list indexing `l[i]`: non-negative indices below the length, negative
indices wrap once from the end, anything else raises `IndexError` (`none`). -/
def pyGet {α : Type} (l : List α) (i : Int) : Option α :=
  if 0 ≤ i ∧ i < l.length then l.get? i.toNat
  else if -(l.length : Int) ≤ i ∧ i < 0 then l.get? (l.length - (-i).toNat)
  else none

/-- `BifidCipher._get_character_from_coordinate` (lines 123-129):
`self.polybius_square[coordinate.row][coordinate.col]`. -/
def getCharFromCoordinate (grid : List (List Char)) (c : Coordinate) : Option Char :=
  (pyGet grid c.row).bind (fun row => pyGet row c.col)

/-- `BifidCipher._get_encrypted_coordinates` (lines 131-155): collect the row
values and the column values, concatenate, and re-pair with `from_list`. -/
def getEncryptedCoordinates (coordinates : List Coordinate) : Option (List Coordinate) :=
  Coordinate.from_list (coordinates.map Coordinate.row ++ coordinates.map Coordinate.col)

/-- `BifidCipher._get_decrypted_coordinates` (lines 157-190): flatten with
`to_list`, split at the midpoint, and zip the halves into coordinates. -/
def getDecryptedCoordinates (coordinates : List Coordinate) : List Coordinate :=
  let xs := Coordinate.to_list coordinates
  let mid := xs.length / 2
  let fh := xs.take mid
  let sh := xs.drop mid
  (fh.zip sh).map (fun p => ⟨p.1, p.2⟩)

/-- The element-by-element loops of `_encrypt_period` / `_decrypt_period` /
`_coordinates_to_message` that build a list while each step may fail: `none`
as soon as one step produces the abnormal outcome, as the Python loop would
crash there. -/
def mapOption {α β : Type} (f : α → Option β) : List α → Option (List β)
  | [] => some []
  | a :: as =>
    match f a, mapOption f as with
    | some b, some bs => some (b :: bs)
    | _, _ => none

/-- `BifidCipher._coordinates_to_message` (lines 192-204). -/
def coordinatesToMessage (grid : List (List Char)) (cs : List Coordinate) : Option (List Char) :=
  mapOption (getCharFromCoordinate grid) cs

/-- `BifidCipher._encrypt_period` (lines 206-220).  A `None` coordinate for a
character absent from the square makes the Python code crash with
`AttributeError` inside `_get_encrypted_coordinates`; the model propagates
`none` at that point. -/
def encryptPeriod (grid : List (List Char)) (p : List Char) : Option (List Char) :=
  (mapOption (getCoordinate grid) p).bind fun coords =>
    (getEncryptedCoordinates coords).bind fun enc =>
      coordinatesToMessage grid enc

/-- `BifidCipher._decrypt_period` (lines 222-240). -/
def decryptPeriod (grid : List (List Char)) (p : List Char) : Option (List Char) :=
  (mapOption (getCoordinate grid) p).bind fun coords =>
    coordinatesToMessage grid (getDecryptedCoordinates coords)

/-- Fuel-driven core of `textwrap.wrap` on whitespace-free text: fixed-width
chunks of `n` characters, last chunk shorter.  The fuel is the length of the
string, which suffices whenever `n ≥ 1`. -/
def wrapAux : Nat → Nat → List Char → List (List Char)
  | 0, _, _ => []
  | _ + 1, _, [] => []
  | fuel + 1, n, c :: cs => (c :: cs).take n :: wrapAux fuel n ((c :: cs).drop n)

/-- `textwrap.wrap(message, period)` as used on the whitespace-free messages of
`encrypt_message` / `decrypt_message` (lines 254, 263). -/
def wrap (n : Nat) (s : List Char) : List (List Char) :=
  wrapAux s.length n s

/-- `BifidCipher.encrypt_message` (lines 242-260): clean, wrap into periods,
encrypt each period, concatenate. -/
def encryptMessage (grid : List (List Char)) (period : Nat) (message : List Char) :
    Option (List Char) :=
  let cleaned := cleanString message
  (mapOption (encryptPeriod grid) (wrap period cleaned)).map List.flatten

/-- `BifidCipher.decrypt_message` (lines 262-267): wrap the raw input into
periods (no cleaning), decrypt each period, concatenate. -/
def decryptMessage (grid : List (List Char)) (period : Nat) (message : List Char) :
    Option (List Char) :=
  (mapOption (decryptPeriod grid) (wrap period message)).map List.flatten

/-! ## Character-level facts (ASCII case model) -/

theorem char_eq_of_toNat_eq {c d : Char} (h : c.toNat = d.toNat) : c = d := by
  rw [← Char.ofNat_toNat c, ← Char.ofNat_toNat d, h]

theorem isLower_iff (c : Char) : c.isLower = true ↔ 97 ≤ c.toNat ∧ c.toNat ≤ 122 := by
  simp [Char.isLower, UInt32.le_def, BitVec.le_def, Char.toNat, UInt32.toNat]

theorem isUpper_iff (c : Char) : c.isUpper = true ↔ 65 ≤ c.toNat ∧ c.toNat ≤ 90 := by
  simp [Char.isUpper, UInt32.le_def, BitVec.le_def, Char.toNat, UInt32.toNat]

theorem isDigit_iff (c : Char) : c.isDigit = true ↔ 48 ≤ c.toNat ∧ c.toNat ≤ 57 := by
  simp [Char.isDigit, UInt32.le_def, BitVec.le_def, Char.toNat, UInt32.toNat]

theorem toNat_ofNat_valid {n : Nat} (h : n.isValidChar) : (Char.ofNat n).toNat = n := by
  simp [Char.ofNat, h, Char.ofNatAux, Char.toNat, UInt32.toNat]

theorem toUpper_eq_ite (c : Char) :
    c.toUpper = if 97 ≤ c.toNat ∧ c.toNat ≤ 122 then Char.ofNat (c.toNat - 32) else c := by
  simp [Char.toUpper]

theorem toUpper_not_lower (c : Char) : c.toUpper.isLower = false := by
  apply Bool.eq_false_iff.mpr
  intro hl
  rw [isLower_iff, toUpper_eq_ite] at hl
  by_cases h : 97 ≤ c.toNat ∧ c.toNat ≤ 122
  · rw [if_pos h, toNat_ofNat_valid (Or.inl (by omega))] at hl
    omega
  · rw [if_neg h] at hl
    omega

theorem toUpper_eq_self_of_not_lower {c : Char} (h : c.isLower = false) : c.toUpper = c := by
  rw [toUpper_eq_ite, if_neg]
  rw [Bool.eq_false_iff, Ne, isLower_iff] at h
  exact h

theorem toUpper_idem (c : Char) : c.toUpper.toUpper = c.toUpper :=
  toUpper_eq_self_of_not_lower (toUpper_not_lower c)

theorem toUpper_isUpper_of_isAlpha {c : Char} (h : c.isAlpha = true) :
    c.toUpper.isUpper = true := by
  rw [Char.isAlpha, Bool.or_eq_true, isUpper_iff, isLower_iff] at h
  rw [toUpper_eq_ite]
  by_cases hl : 97 ≤ c.toNat ∧ c.toNat ≤ 122
  · rw [if_pos hl]
    have hv : (c.toNat - 32).isValidChar := Or.inl (by omega)
    rw [isUpper_iff, toNat_ofNat_valid hv]
    omega
  · rw [if_neg hl, isUpper_iff]
    omega

theorem mem_ALPHABET_of_upper {c : Char} (hu : c.isUpper = true) (hj : c ≠ 'J') :
    c ∈ ALPHABET := by
  rw [isUpper_iff] at hu
  have hj' : c.toNat ≠ 74 := fun h => hj (char_eq_of_toNat_eq (by rw [h]; rfl))
  have key : ∀ n : Fin 91, 65 ≤ n.val → n.val ≠ 74 → Char.ofNat n.val ∈ ALPHABET := by decide
  have := key ⟨c.toNat, by omega⟩ (by exact hu.1) hj'
  rwa [Char.ofNat_toNat] at this

theorem mem_ALPHABET_upper : ∀ c ∈ ALPHABET, c.isUpper = true ∧ c ≠ 'J' := by decide

/-! ## Facts about `cleanString` -/

theorem cleanString_mem {s : List Char} :
    ∀ c ∈ cleanString s, c.isAlphanum = true ∧ c.toUpper = c ∧ c ≠ 'J' := by
  intro c hc
  unfold cleanString at hc
  rw [List.mem_filter] at hc
  obtain ⟨hmem, halnum⟩ := hc
  rw [List.mem_map] at hmem
  obtain ⟨d, hd, hcd⟩ := hmem
  rw [List.mem_map] at hd
  obtain ⟨e, _, hde⟩ := hd
  refine ⟨halnum, ?_, ?_⟩
  · subst hcd
    by_cases hJ : d = 'J'
    · rw [if_pos hJ]; decide
    · rw [if_neg hJ, ← hde, toUpper_idem]
  · subst hcd
    by_cases hJ : d = 'J'
    · rw [if_pos hJ]; decide
    · rw [if_neg hJ]; exact hJ

theorem cleanString_not_lower {s : List Char} :
    ∀ c ∈ cleanString s, c.isLower = false := by
  intro c hc
  have h := (cleanString_mem c hc).2.1
  by_cases hl : c.isLower = true
  · exfalso
    have := toUpper_not_lower c
    rw [h] at this
    rw [this] at hl
    exact Bool.false_ne_true hl
  · exact Bool.eq_false_iff.mpr hl

theorem cleanString_letters {s : List Char} (hs : ∀ c ∈ s, c.isAlpha = true) :
    ∀ c ∈ cleanString s, c ∈ ALPHABET := by
  intro c hc
  have hfix := cleanString_mem c hc
  unfold cleanString at hc
  rw [List.mem_filter] at hc
  obtain ⟨hmem, _⟩ := hc
  rw [List.mem_map] at hmem
  obtain ⟨d, hd, hcd⟩ := hmem
  rw [List.mem_map] at hd
  obtain ⟨e, he, hde⟩ := hd
  rw [List.mem_filter] at he
  have halpha : e.isAlpha = true := hs e he.1
  have hup : d.isUpper = true := by rw [← hde]; exact toUpper_isUpper_of_isAlpha halpha
  subst hcd
  by_cases hJ : d = 'J'
  · rw [if_pos hJ]; decide
  · rw [if_neg hJ]; exact mem_ALPHABET_of_upper hup hJ

/-! ## Facts about `Coordinate.from_list` / `to_list` and fractionation -/

namespace Coordinate

theorem pairUp_nil : pairUp [] = [] := rfl

theorem pairUp_single (a : Int) : pairUp [a] = [] := rfl

theorem pairUp_cons (a b : Int) (rest : List Int) :
    pairUp (a :: b :: rest) = ⟨a, b⟩ :: pairUp rest := rfl

theorem pairUp_length : ∀ xs : List Int, (pairUp xs).length = xs.length / 2
  | [] => rfl
  | [a] => by simp [pairUp_single]
  | _ :: _ :: rest => by
    rw [pairUp_cons]
    simp only [List.length_cons, pairUp_length rest]
    omega

theorem to_list_pairUp : ∀ xs : List Int, xs.length % 2 = 0 → to_list (pairUp xs) = xs
  | [], _ => rfl
  | [_], h => by simp at h
  | a :: b :: rest, h => by
    rw [pairUp_cons, to_list,
      to_list_pairUp rest (by simp only [List.length_cons] at h; omega)]

theorem to_list_length : ∀ cs : List Coordinate, (to_list cs).length = 2 * cs.length
  | [] => rfl
  | _ :: rest => by
    rw [to_list]
    simp only [List.length_cons, to_list_length rest]
    omega

theorem mem_pairUp : ∀ xs : List Int, ∀ c ∈ pairUp xs, c.row ∈ xs ∧ c.col ∈ xs
  | [], c, hc => by simp [pairUp] at hc
  | [_], c, hc => by simp [pairUp] at hc
  | a :: b :: rest, c, hc => by
    rw [pairUp, List.mem_cons] at hc
    rcases hc with h | h
    · subst h
      exact ⟨List.mem_cons_self _ _, List.mem_cons_of_mem _ (List.mem_cons_self _ _)⟩
    · have := mem_pairUp rest c h
      exact ⟨List.mem_cons_of_mem _ (List.mem_cons_of_mem _ this.1),
             List.mem_cons_of_mem _ (List.mem_cons_of_mem _ this.2)⟩

theorem mem_to_list : ∀ cs : List Coordinate, ∀ x ∈ to_list cs,
    ∃ c ∈ cs, x = c.row ∨ x = c.col
  | [], x, hx => by simp [to_list] at hx
  | c :: rest, x, hx => by
    rw [to_list, List.mem_cons, List.mem_cons] at hx
    rcases hx with h | h | h
    · exact ⟨c, List.mem_cons_self _ _, Or.inl h⟩
    · exact ⟨c, List.mem_cons_self _ _, Or.inr h⟩
    · obtain ⟨d, hd, hx⟩ := mem_to_list rest x h
      exact ⟨d, List.mem_cons_of_mem _ hd, hx⟩

theorem pairUp_get? : ∀ (xs : List Int) (i : Nat), xs.length % 2 = 0 →
    (pairUp xs).get? i =
      (xs.get? (2 * i)).bind fun a =>
        (xs.get? (2 * i + 1)).map fun b => (⟨a, b⟩ : Coordinate)
  | [], i, _ => by simp [pairUp_nil]
  | [a], i, h => by simp at h
  | a :: b :: rest, 0, _ => by simp [pairUp_cons]
  | a :: b :: rest, i + 1, h => by
    rw [pairUp_cons]
    have e1 : 2 * (i + 1) = 2 * i + 1 + 1 := by omega
    rw [e1]
    simp only [List.get?_cons_succ]
    exact pairUp_get? rest i (by simp only [List.length_cons] at h; omega)

end Coordinate

/-- Rebuilding a coordinate list from the zip of its row values and column values. -/
theorem zip_row_col :
    ∀ cs : List Coordinate,
      ((cs.map Coordinate.row).zip (cs.map Coordinate.col)).map
        (fun p => (⟨p.1, p.2⟩ : Coordinate)) = cs
  | [] => rfl
  | c :: rest => by
    simp only [List.map_cons, List.zip_cons_cons, zip_row_col rest]

/-- Fractionation always succeeds (the flattened list has even length) and
defractionation undoes it: the shared inverse fact behind the round-trip claims. -/
theorem frac_defrac (cs : List Coordinate) :
    getEncryptedCoordinates cs =
      some (Coordinate.pairUp (cs.map Coordinate.row ++ cs.map Coordinate.col)) ∧
    ∀ enc, getEncryptedCoordinates cs = some enc → getDecryptedCoordinates enc = cs := by
  have hlen : (cs.map Coordinate.row ++ cs.map Coordinate.col).length % 2 = 0 := by
    simp only [List.length_append, List.length_map]
    omega
  constructor
  · rw [getEncryptedCoordinates, Coordinate.from_list, if_neg (by omega)]
  · intro enc henc
    rw [getEncryptedCoordinates, Coordinate.from_list, if_neg (by omega)] at henc
    have henc' : enc = Coordinate.pairUp (cs.map Coordinate.row ++ cs.map Coordinate.col) :=
      (Option.some.inj henc).symm
    subst henc'
    simp only [getDecryptedCoordinates]
    rw [Coordinate.to_list_pairUp _ hlen]
    have hmid : (cs.map Coordinate.row ++ cs.map Coordinate.col).length / 2 =
        (cs.map Coordinate.row).length := by
      simp only [List.length_append, List.length_map]
      omega
    rw [hmid, List.take_left, List.drop_left]
    exact zip_row_col cs

/-- Every coordinate produced by defractionation draws its row and its column
from the flattened input. -/
theorem mem_getDecryptedCoordinates (cs : List Coordinate) :
    ∀ c ∈ getDecryptedCoordinates cs,
      (∃ d ∈ cs, c.row = d.row ∨ c.row = d.col) ∧
      (∃ d ∈ cs, c.col = d.row ∨ c.col = d.col) := by
  intro c hc
  rw [getDecryptedCoordinates] at hc
  simp only [List.mem_map] at hc
  obtain ⟨⟨x, y⟩, hxy, hcx⟩ := hc
  have hx := (List.of_mem_zip hxy).1
  have hy := (List.of_mem_zip hxy).2
  have hx' := List.mem_of_mem_take hx
  have hy' := List.mem_of_mem_drop hy
  subst hcx
  constructor
  · obtain ⟨d, hd, h⟩ := Coordinate.mem_to_list cs x hx'
    exact ⟨d, hd, by simpa using h⟩
  · obtain ⟨d, hd, h⟩ := Coordinate.mem_to_list cs y hy'
    exact ⟨d, hd, by simpa using h⟩

/-- Defractionation preserves the length of its input. -/
theorem getDecryptedCoordinates_length (cs : List Coordinate) :
    (getDecryptedCoordinates cs).length = cs.length := by
  rw [getDecryptedCoordinates]
  simp only [List.length_map, List.length_zip, List.length_take, List.length_drop,
    Coordinate.to_list_length]
  omega

/-! ## Facts about `mapOption` -/

theorem mapOption_cons_some {α β : Type} (f : α → Option β) (a : α) (as : List α)
    {b : β} {bs : List β} (ha : f a = some b) (has : mapOption f as = some bs) :
    mapOption f (a :: as) = some (b :: bs) := by
  rw [mapOption, ha, has]

theorem mapOption_sound {α β : Type} (f : α → Option β) :
    ∀ (l : List α) (res : List β), mapOption f l = some res →
      res.length = l.length ∧ List.Forall₂ (fun a b => f a = some b) l res
  | [], res, h => by
    rw [mapOption] at h
    cases h
    exact ⟨rfl, List.Forall₂.nil⟩
  | a :: as, res, h => by
    rw [mapOption] at h
    cases hfa : f a with
    | none => rw [hfa] at h; exact absurd h (by simp)
    | some b =>
      rw [hfa] at h
      cases hrec : mapOption f as with
      | none => rw [hrec] at h; exact absurd h (by simp)
      | some bs =>
        rw [hrec] at h
        have hres : res = b :: bs := by
          cases h
          rfl
        subst hres
        obtain ⟨hlen, hall⟩ := mapOption_sound f as bs hrec
        exact ⟨by simp [hlen], List.Forall₂.cons hfa hall⟩

theorem mapOption_complete {α β : Type} (f : α → Option β) :
    ∀ (l : List α), (∀ a ∈ l, (f a).isSome) → ∃ res, mapOption f l = some res
  | [], _ => ⟨[], rfl⟩
  | a :: as, h => by
    obtain ⟨b, hb⟩ := Option.isSome_iff_exists.mp (h a (List.mem_cons_self _ _))
    obtain ⟨bs, hbs⟩ := mapOption_complete f as (fun x hx => h x (List.mem_cons_of_mem _ hx))
    exact ⟨b :: bs, mapOption_cons_some f a as hb hbs⟩

theorem mapOption_of_forall₂ {α β : Type} (h : β → Option α) :
    ∀ {l : List α} {res : List β}, List.Forall₂ (fun a b => h b = some a) l res →
      mapOption h res = some l := by
  intro l res hall
  induction hall with
  | nil => rfl
  | cons hab _ ih => exact mapOption_cons_some h _ _ hab ih

/-! ## Facts about `wrap` and the shape of its chunks -/

/-- The shape the spec ascribes to period segmentation: every chunk but the last
has exactly `n` characters, the last has between 1 and `n`. -/
def chunkShape (n : Nat) : List (List Char) → Prop
  | [] => True
  | [c] => c ≠ [] ∧ c.length ≤ n
  | c :: rest => c.length = n ∧ chunkShape n rest

theorem chunkShape_nil (n : Nat) : chunkShape n [] := trivial

theorem chunkShape_cons_cons {n : Nat} {c d : List Char} {rest : List (List Char)} :
    chunkShape n (c :: d :: rest) ↔ c.length = n ∧ chunkShape n (d :: rest) := Iff.rfl

theorem wrapAux_fuel (n : Nat) (hn : 1 ≤ n) :
    ∀ (fuel fuel' : Nat) (s : List Char), s.length ≤ fuel → s.length ≤ fuel' →
      wrapAux fuel n s = wrapAux fuel' n s
  | 0, fuel', s, hf, _ => by
    have hs : s = [] := List.length_eq_zero.mp (Nat.le_zero.mp hf)
    subst hs
    cases fuel' <;> rfl
  | fuel + 1, fuel', s, hf, hf' => by
    cases s with
    | nil => cases fuel' <;> rfl
    | cons c cs =>
      cases fuel' with
      | zero => simp at hf'
      | succ fuel'' =>
        rw [wrapAux, wrapAux]
        congr 1
        apply wrapAux_fuel n hn fuel fuel''
        · simp only [List.length_drop, List.length_cons]
          simp only [List.length_cons] at hf
          omega
        · simp only [List.length_drop, List.length_cons]
          simp only [List.length_cons] at hf'
          omega

theorem wrap_nil (n : Nat) : wrap n [] = [] := rfl

theorem wrap_cons (n : Nat) (hn : 1 ≤ n) (c : Char) (cs : List Char) :
    wrap n (c :: cs) = (c :: cs).take n :: wrap n ((c :: cs).drop n) := by
  have hstep : wrap n (c :: cs) =
      (c :: cs).take n :: wrapAux cs.length n ((c :: cs).drop n) := rfl
  rw [hstep]
  congr 1
  apply wrapAux_fuel n hn
  · simp only [List.length_drop, List.length_cons]
    omega
  · exact Nat.le_refl _

theorem wrap_spec (n : Nat) (hn : 1 ≤ n) :
    ∀ (fuel : Nat) (s : List Char), s.length ≤ fuel →
      (wrap n s).flatten = s ∧ chunkShape n (wrap n s)
  | 0, s, hf => by
    have hs : s = [] := List.length_eq_zero.mp (Nat.le_zero.mp hf)
    subst hs
    exact ⟨rfl, trivial⟩
  | fuel + 1, s, hf => by
    cases s with
    | nil => exact ⟨rfl, trivial⟩
    | cons c cs =>
      have hdrop : ((c :: cs).drop n).length ≤ fuel := by
        simp only [List.length_drop, List.length_cons]
        simp only [List.length_cons] at hf
        omega
      obtain ⟨ihflat, ihshape⟩ := wrap_spec n hn fuel ((c :: cs).drop n) hdrop
      rw [wrap_cons n hn]
      constructor
      · rw [List.flatten_cons, ihflat, List.take_append_drop]
      · cases hw : wrap n ((c :: cs).drop n) with
        | nil =>
          refine ⟨?_, ?_⟩
          · intro habs
            rw [List.take_eq_nil_iff] at habs
            rcases habs with h0 | h0
            · omega
            · exact absurd h0 (by simp)
          · simp only [List.length_take]
            exact Nat.min_le_left _ _
        | cons w ws =>
          rw [hw] at ihshape
          rw [chunkShape_cons_cons]
          refine ⟨?_, ihshape⟩
          have hne : (c :: cs).drop n ≠ [] := by
            intro habs
            rw [habs, wrap_nil] at hw
            exact absurd hw (by simp)
          have : n < (c :: cs).length := by
            by_contra hle
            exact hne (List.drop_eq_nil_of_le (by omega))
          simp only [List.length_take]
          omega

theorem wrap_flatten (n : Nat) (hn : 1 ≤ n) (s : List Char) : (wrap n s).flatten = s :=
  (wrap_spec n hn s.length s (Nat.le_refl _)).1

theorem wrap_shape (n : Nat) (hn : 1 ≤ n) (s : List Char) : chunkShape n (wrap n s) :=
  (wrap_spec n hn s.length s (Nat.le_refl _)).2

theorem wrap_of_chunkShape (n : Nat) (hn : 1 ≤ n) :
    ∀ css : List (List Char), chunkShape n css → wrap n css.flatten = css
  | [], _ => rfl
  | [c], h => by
    obtain ⟨hne, hle⟩ := h
    cases c with
    | nil => exact absurd rfl hne
    | cons x xs =>
      rw [List.flatten_cons, List.flatten_nil, List.append_nil, wrap_cons n hn]
      rw [List.take_of_length_le hle, List.drop_eq_nil_of_le hle, wrap_nil]
  | c :: d :: rest, h => by
    obtain ⟨hlen, hrest⟩ := (chunkShape_cons_cons).mp h
    cases c with
    | nil =>
      rw [List.length_nil] at hlen
      omega
    | cons x xs =>
      rw [List.flatten_cons, List.cons_append, wrap_cons n hn]
      have htake : (x :: (xs ++ (d :: rest).flatten)).take n = x :: xs := by
        rw [← List.cons_append, ← hlen, List.take_left]
      have hdrop : (x :: (xs ++ (d :: rest).flatten)).drop n = (d :: rest).flatten := by
        rw [← List.cons_append, ← hlen, List.drop_left]
      rw [htake, hdrop, wrap_of_chunkShape n hn (d :: rest) hrest]

/-- Pointwise equal chunk lengths transfer the chunk shape. -/
theorem chunkShape_of_forall₂ (n : Nat) :
    ∀ {css dss : List (List Char)}, List.Forall₂ (fun c d => d.length = c.length) css dss →
      chunkShape n css → chunkShape n dss := by
  intro css dss hall
  induction hall with
  | nil => exact fun h => h
  | @cons c d cs ds hcd hrest ih =>
    intro h
    cases hrest with
    | nil =>
      obtain ⟨hne, hle⟩ := h
      refine ⟨?_, by rw [hcd]; exact hle⟩
      intro habs
      apply hne
      apply List.length_eq_zero.mp
      rw [← hcd, habs]
      rfl
    | @cons d' ds' hd hds =>
      obtain ⟨hlen, hsh⟩ := (chunkShape_cons_cons).mp h
      exact (chunkShape_cons_cons).mpr ⟨by rw [hcd, hlen], ih hsh⟩

/-! ## The square as five slices of the cleaned key -/

/-- The row list a valid 25-character cleaned key is sliced into. -/
def grid25 (k : List Char) : List (List Char) :=
  [(k.drop 0).take 5, (k.drop 5).take 5, (k.drop 10).take 5, (k.drop 15).take 5,
   (k.drop 20).take 5]

theorem pps_eq {s : List Char} (h : (cleanKey s).length = 25) :
    processPolybiusSquare s = some (grid25 (cleanKey s)) := by
  simp [processPolybiusSquare, h, grid25]

theorem pps_some {s : List Char} {g : List (List Char)}
    (h : processPolybiusSquare s = some g) :
    (cleanKey s).length = 25 ∧ g = grid25 (cleanKey s) := by
  by_cases h25 : (cleanKey s).length = 25
  · rw [pps_eq h25] at h
    exact ⟨h25, (Option.some.inj h).symm⟩
  · exfalso
    simp only [processPolybiusSquare] at h
    rw [if_pos h25] at h
    exact absurd h (by simp)

theorem grid25_rows_len {k : List Char} (hk : k.length = 25) :
    ∀ row ∈ grid25 k, row.length = 5 := by
  intro row hr
  simp only [grid25, List.mem_cons, List.not_mem_nil, or_false] at hr
  rcases hr with rfl | rfl | rfl | rfl | rfl <;>
    simp [List.length_take, List.length_drop, hk]

theorem grid25_flatten {k : List Char} (hk : k.length = 25) : (grid25 k).flatten = k := by
  have e : ∀ a b : Nat, b = a + 5 → (k.drop a).take 5 ++ k.drop b = k.drop a := by
    intro a b hab
    rw [hab, show k.drop (a + 5) = (k.drop a).drop 5 from by rw [List.drop_drop],
      List.take_append_drop]
  have h20 : (k.drop 20).take 5 = k.drop 20 :=
    List.take_of_length_le (by simp [List.length_drop, hk])
  show (k.drop 0).take 5 ++ ((k.drop 5).take 5 ++ ((k.drop 10).take 5 ++
      ((k.drop 15).take 5 ++ ((k.drop 20).take 5 ++ [])))) = k
  rw [List.append_nil, h20, e 15 20 rfl, e 10 15 rfl, e 5 10 rfl, e 0 5 rfl, List.drop_zero]

theorem get?_drop {α : Type} : ∀ (l : List α) (n m : Nat), (l.drop n).get? m = l.get? (n + m)
  | _, 0, _ => by simp
  | [], n + 1, m => by simp
  | _ :: as, n + 1, m => by
    rw [List.drop_succ_cons, get?_drop as n m,
      show n + 1 + m = n + m + 1 from by omega]
    rfl

/-! ## Characterisation of the row-major scan -/

theorem findIdxInRow_spec : ∀ (row : List Char) (i : Nat) (ch : Char),
    findIdxInRow i row ch = if ch ∈ row then some (i + row.indexOf ch) else none
  | [], i, ch => by simp [findIdxInRow]
  | c :: cs, i, ch => by
    rw [findIdxInRow]
    by_cases hc : c = ch
    · subst hc
      rw [if_pos rfl, if_pos (List.mem_cons_self c cs), List.indexOf_cons_self]
      rfl
    · rw [if_neg hc, findIdxInRow_spec cs (i + 1) ch]
      by_cases hm : ch ∈ cs
      · rw [if_pos hm, if_pos (List.mem_cons_of_mem c hm), List.indexOf_cons_ne _ hc]
        congr 1
        omega
      · rw [if_neg hm, if_neg ?notmem]
        case notmem =>
          intro habs
          rcases List.mem_cons.mp habs with h | h
          · exact hc h.symm
          · exact hm h

theorem getCoordinateAux_spec (ch : Char) :
    ∀ (rs : List (List Char)) (r : Nat), (∀ row ∈ rs, row.length = 5) →
      getCoordinateAux r rs ch =
        if ch ∈ rs.flatten then
          some ⟨((r + rs.flatten.indexOf ch / 5 : Nat) : Int),
                ((rs.flatten.indexOf ch % 5 : Nat) : Int)⟩
        else none
  | [], r, _ => by simp [getCoordinateAux]
  | row :: rest, r, hlen => by
    have hrow : row.length = 5 := hlen row (List.mem_cons_self _ _)
    have hstep : getCoordinateAux r (row :: rest) ch =
        (match findIdxInRow 0 row ch with
         | some cidx => some ⟨(r : Int), (cidx : Int)⟩
         | none => getCoordinateAux (r + 1) rest ch) := rfl
    rw [hstep, findIdxInRow_spec row 0 ch, List.flatten_cons]
    by_cases hm : ch ∈ row
    · rw [if_pos hm]
      have hidx : row.indexOf ch < 5 := by
        rw [← hrow]
        exact List.indexOf_lt_length.mpr hm
      rw [if_pos (List.mem_append_left _ hm), List.indexOf_append_of_mem hm]
      simp only [Nat.zero_add, Option.some.injEq, Coordinate.mk.injEq]
      constructor <;> · rw [Nat.cast_inj]; omega
    · rw [if_neg hm]
      rw [getCoordinateAux_spec ch rest (r + 1)
        (fun row2 hr2 => hlen row2 (List.mem_cons_of_mem _ hr2))]
      by_cases hm2 : ch ∈ rest.flatten
      · rw [if_pos hm2, if_pos (List.mem_append_right _ hm2),
          List.indexOf_append_of_not_mem hm, hrow]
        simp only [Option.some.injEq, Coordinate.mk.injEq]
        constructor <;> · rw [Nat.cast_inj]; omega
      · rw [if_neg hm2, if_neg ?notmem2]
        case notmem2 =>
          intro habs
          rcases List.mem_append.mp habs with h | h
          · exact hm h
          · exact hm2 h

theorem getCoordinate_spec {k : List Char} (hk : k.length = 25) (ch : Char) :
    getCoordinate (grid25 k) ch =
      if ch ∈ k then
        some ⟨((k.indexOf ch / 5 : Nat) : Int), ((k.indexOf ch % 5 : Nat) : Int)⟩
      else none := by
  rw [getCoordinate, getCoordinateAux_spec ch (grid25 k) 0 (grid25_rows_len hk),
    grid25_flatten hk]
  simp only [Nat.zero_add]

/-- The coordinates the scan produces are inside the 5×5 square. -/
def CoordInRange (c : Coordinate) : Prop :=
  0 ≤ c.row ∧ c.row < 5 ∧ 0 ≤ c.col ∧ c.col < 5

theorem getCoordinate_inRange {k : List Char} (hk : k.length = 25) {ch : Char}
    {co : Coordinate} (h : getCoordinate (grid25 k) ch = some co) : CoordInRange co := by
  rw [getCoordinate_spec hk] at h
  by_cases hm : ch ∈ k
  · rw [if_pos hm] at h
    have hidx : k.indexOf ch < 25 := by
      rw [← hk]
      exact List.indexOf_lt_length.mpr hm
    obtain rfl : (⟨((k.indexOf ch / 5 : Nat) : Int), ((k.indexOf ch % 5 : Nat) : Int)⟩ :
        Coordinate) = co := Option.some.inj h
    refine ⟨Int.natCast_nonneg _, ?_, Int.natCast_nonneg _, ?_⟩ <;>
      · show ((_ : Nat) : Int) < 5
        rw [show (5 : Int) = ((5 : Nat) : Int) from rfl, Nat.cast_lt]
        omega
  · rw [if_neg hm] at h
    exact absurd h (by simp)

theorem grid25_get? {k : List Char} :
    ∀ r : Nat, r < 5 → (grid25 k).get? r = some ((k.drop (5 * r)).take 5) := by
  intro r hr
  interval_cases r <;> rfl

theorem getCharFromCoordinate_spec {k : List Char} (hk : k.length = 25) (r c : Nat)
    (hr : r < 5) (hc : c < 5) :
    getCharFromCoordinate (grid25 k) ⟨(r : Int), (c : Int)⟩ = k.get? (5 * r + c) := by
  rw [getCharFromCoordinate]
  have h1 : pyGet (grid25 k) ((r : Nat) : Int) = some ((k.drop (5 * r)).take 5) := by
    rw [pyGet, if_pos]
    · rw [Int.toNat_natCast]
      exact grid25_get? r hr
    · exact ⟨Int.natCast_nonneg _, by exact_mod_cast hr⟩
  rw [h1]
  have hrowlen : ((k.drop (5 * r)).take 5).length = 5 := by
    simp only [List.length_take, List.length_drop, hk]
    omega
  show pyGet ((k.drop (5 * r)).take 5) ((c : Nat) : Int) = k.get? (5 * r + c)
  rw [pyGet, if_pos]
  · rw [Int.toNat_natCast, List.get?_take hc, get?_drop]
  · refine ⟨Int.natCast_nonneg _, ?_⟩
    rw [hrowlen]
    exact_mod_cast hc

/-! ## More `mapOption` facts -/

theorem mapOption_mem_right {α β : Type} (f : α → Option β) :
    ∀ (l : List α) (res : List β), mapOption f l = some res →
      ∀ b ∈ res, ∃ a ∈ l, f a = some b
  | [], res, h => by
    rw [mapOption] at h
    cases h
    intro b hb
    exact absurd hb (List.not_mem_nil b)
  | a :: as, res, h => by
    rw [mapOption] at h
    cases hfa : f a with
    | none => rw [hfa] at h; exact absurd h (by simp)
    | some b0 =>
      rw [hfa] at h
      cases hrec : mapOption f as with
      | none => rw [hrec] at h; exact absurd h (by simp)
      | some bs =>
        rw [hrec] at h
        have hres : res = b0 :: bs := by
          cases h
          rfl
        subst hres
        intro b hb
        rcases List.mem_cons.mp hb with rfl | hmem
        · exact ⟨a, List.mem_cons_self _ _, hfa⟩
        · obtain ⟨a2, ha2, hfa2⟩ := mapOption_mem_right f as bs hrec b hmem
          exact ⟨a2, List.mem_cons_of_mem _ ha2, hfa2⟩

theorem mapOption_complete_strong {α β : Type} (f : α → Option β)
    (P : α → β → Prop) :
    ∀ l : List α, (∀ a ∈ l, ∃ b, f a = some b ∧ P a b) →
      ∃ res, mapOption f l = some res ∧ List.Forall₂ P l res
  | [], _ => ⟨[], rfl, List.Forall₂.nil⟩
  | a :: as, h => by
    obtain ⟨b, hb, hP⟩ := h a (List.mem_cons_self _ _)
    obtain ⟨bs, hbs, hall⟩ :=
      mapOption_complete_strong f P as (fun x hx => h x (List.mem_cons_of_mem _ hx))
    exact ⟨b :: bs, mapOption_cons_some f a as hb hbs, List.Forall₂.cons hP hall⟩

theorem forall₂_imp_of_mem {α β : Type} {R S : α → β → Prop} :
    ∀ {l : List α} {res : List β}, List.Forall₂ R l res →
      (∀ a ∈ l, ∀ b ∈ res, R a b → S a b) → List.Forall₂ S l res := by
  intro l res hall
  induction hall with
  | nil => exact fun _ => List.Forall₂.nil
  | @cons a b as bs hab _ ih =>
    intro h
    refine List.Forall₂.cons
      (h a (List.mem_cons_self _ _) b (List.mem_cons_self _ _) hab) (ih ?_)
    intro x hx y hy hxy
    exact h x (List.mem_cons_of_mem _ hx) y (List.mem_cons_of_mem _ hy) hxy

theorem flatten_length_of_forall₂ :
    ∀ {l res : List (List Char)}, List.Forall₂ (fun p q => q.length = p.length) l res →
      res.flatten.length = l.flatten.length := by
  intro l res hall
  induction hall with
  | nil => rfl
  | cons hab _ ih => simp only [List.flatten_cons, List.length_append, hab, ih]

/-! ## Round-trip facts for a single letter and a single coordinate -/

theorem coord_destruct {co : Coordinate} (hco : CoordInRange co) :
    ∃ r c : Nat, r < 5 ∧ c < 5 ∧ co = ⟨(r : Int), (c : Int)⟩ := by
  obtain ⟨h1, h2, h3, h4⟩ := hco
  refine ⟨co.row.toNat, co.col.toNat, ?_, ?_, ?_⟩
  · omega
  · omega
  · have hr := Int.toNat_of_nonneg h1
    have hc := Int.toNat_of_nonneg h3
    cases co
    simp only [Coordinate.mk.injEq]
    exact ⟨hr.symm, hc.symm⟩

theorem getCoordinate_isSome {k : List Char} (hk : k.length = 25) {ch : Char}
    (hch : ch ∈ k) : (getCoordinate (grid25 k) ch).isSome := by
  rw [getCoordinate_spec hk, if_pos hch]
  rfl

theorem getChar_after_getCoordinate {k : List Char} (hk : k.length = 25) {ch : Char}
    {co : Coordinate} (hch : ch ∈ k) (h : getCoordinate (grid25 k) ch = some co) :
    getCharFromCoordinate (grid25 k) co = some ch := by
  rw [getCoordinate_spec hk, if_pos hch] at h
  have hidx : k.indexOf ch < 25 := by
    rw [← hk]
    exact List.indexOf_lt_length.mpr hch
  obtain rfl :
      (⟨((k.indexOf ch / 5 : Nat) : Int), ((k.indexOf ch % 5 : Nat) : Int)⟩ : Coordinate)
        = co := Option.some.inj h
  rw [getCharFromCoordinate_spec hk _ _ (by omega) (by omega)]
  rw [show 5 * (k.indexOf ch / 5) + k.indexOf ch % 5 = k.indexOf ch from by omega]
  rw [List.get?_eq_getElem?, List.getElem?_eq_getElem (by omega)]
  rw [List.getElem_indexOf (by omega)]

theorem getChar_inRange {k : List Char} (hk : k.length = 25) {co : Coordinate}
    (hco : CoordInRange co) :
    ∃ ch, getCharFromCoordinate (grid25 k) co = some ch ∧ ch ∈ k := by
  obtain ⟨r, c, hr, hc, rfl⟩ := coord_destruct hco
  rw [getCharFromCoordinate_spec hk r c hr hc]
  have hlt : 5 * r + c < k.length := by omega
  refine ⟨k.get ⟨5 * r + c, hlt⟩, ?_, List.get_mem k _ _⟩
  rw [List.get?_eq_getElem?, List.getElem?_eq_getElem hlt]
  rfl

theorem getCoordinate_after_getChar {k : List Char} (hk : k.length = 25)
    (hnd : k.Nodup) {co : Coordinate} {ch : Char} (hco : CoordInRange co)
    (h : getCharFromCoordinate (grid25 k) co = some ch) :
    getCoordinate (grid25 k) ch = some co := by
  obtain ⟨r, c, hr, hc, rfl⟩ := coord_destruct hco
  rw [getCharFromCoordinate_spec hk r c hr hc] at h
  have hlt : 5 * r + c < k.length := by omega
  rw [List.get?_eq_getElem?, List.getElem?_eq_getElem hlt] at h
  have hch : ch = getElem k (5 * r + c) hlt := (Option.some.inj h).symm
  subst hch
  have hmem : getElem k (5 * r + c) hlt ∈ k := by
    apply List.getElem_mem
  rw [getCoordinate_spec hk, if_pos hmem, List.indexOf_getElem hnd (5 * r + c) hlt]
  simp only [Option.some.injEq, Coordinate.mk.injEq]
  constructor <;> · rw [Nat.cast_inj]; omega

theorem getChar_mem {k : List Char} (hk : k.length = 25) {co : Coordinate}
    {ch : Char} (hco : CoordInRange co)
    (h : getCharFromCoordinate (grid25 k) co = some ch) : ch ∈ k := by
  obtain ⟨ch2, h2, hmem⟩ := getChar_inRange hk hco
  rw [h] at h2
  rw [Option.some.inj h2]
  exact hmem

/-! ## Range preservation through fractionation and defractionation -/

theorem rowcols_bounds {cs : List Coordinate} (hcs : ∀ co ∈ cs, CoordInRange co) :
    ∀ x ∈ cs.map Coordinate.row ++ cs.map Coordinate.col, 0 ≤ x ∧ x < 5 := by
  intro x hx
  rcases List.mem_append.mp hx with h | h <;>
  · rw [List.mem_map] at h
    obtain ⟨co, hco, rfl⟩ := h
    obtain ⟨h1, h2, h3, h4⟩ := hcs co hco
    constructor <;> omega

theorem frac_inRange {cs enc : List Coordinate} (hcs : ∀ co ∈ cs, CoordInRange co)
    (h : getEncryptedCoordinates cs = some enc) : ∀ co ∈ enc, CoordInRange co := by
  intro co hco
  rw [(frac_defrac cs).1] at h
  have henc : enc = Coordinate.pairUp (cs.map Coordinate.row ++ cs.map Coordinate.col) :=
    (Option.some.inj h).symm
  subst henc
  obtain ⟨hrow, hcol⟩ := Coordinate.mem_pairUp _ co hco
  have h1 := rowcols_bounds hcs co.row hrow
  have h2 := rowcols_bounds hcs co.col hcol
  exact ⟨h1.1, h1.2, h2.1, h2.2⟩

theorem bounds_of_mem_to_list {cs : List Coordinate} (hcs : ∀ co ∈ cs, CoordInRange co) :
    ∀ x ∈ Coordinate.to_list cs, 0 ≤ x ∧ x < 5 := by
  intro x hx
  obtain ⟨co, hco, h⟩ := Coordinate.mem_to_list cs x hx
  obtain ⟨h1, h2, h3, h4⟩ := hcs co hco
  rcases h with rfl | rfl <;> constructor <;> omega

theorem defrac_inRange {cs : List Coordinate} (hcs : ∀ co ∈ cs, CoordInRange co) :
    ∀ co ∈ getDecryptedCoordinates cs, CoordInRange co := by
  intro co hco
  obtain ⟨⟨d1, hd1, hr⟩, ⟨d2, hd2, hc⟩⟩ := mem_getDecryptedCoordinates cs co hco
  obtain ⟨a1, a2, a3, a4⟩ := hcs d1 hd1
  obtain ⟨b1, b2, b3, b4⟩ := hcs d2 hd2
  refine ⟨?_, ?_, ?_, ?_⟩ <;> rcases hr with h | h <;> rcases hc with h2 | h2 <;> omega

/-! ## Per-period behaviour -/

theorem frac_length {cs enc : List Coordinate}
    (h : getEncryptedCoordinates cs = some enc) : enc.length = cs.length := by
  rw [(frac_defrac cs).1] at h
  have henc : enc = Coordinate.pairUp (cs.map Coordinate.row ++ cs.map Coordinate.col) :=
    (Option.some.inj h).symm
  subst henc
  rw [Coordinate.pairUp_length]
  simp only [List.length_append, List.length_map]
  omega

theorem encryptPeriod_full {k : List Char} (hk : k.length = 25) {p : List Char}
    (hp : ∀ ch ∈ p, ch ∈ k) :
    ∃ cs enc q,
      mapOption (getCoordinate (grid25 k)) p = some cs ∧
      getEncryptedCoordinates cs = some enc ∧
      coordinatesToMessage (grid25 k) enc = some q ∧
      encryptPeriod (grid25 k) p = some q ∧
      q.length = p.length ∧ (∀ ch ∈ q, ch ∈ k) ∧
      (∀ co ∈ cs, CoordInRange co) ∧ (∀ co ∈ enc, CoordInRange co) ∧
      List.Forall₂ (fun a b => getCoordinate (grid25 k) a = some b) p cs ∧
      List.Forall₂ (fun a b => getCharFromCoordinate (grid25 k) a = some b) enc q := by
  obtain ⟨cs, hcs⟩ := mapOption_complete (getCoordinate (grid25 k)) p
    (fun ch hch => getCoordinate_isSome hk (hp ch hch))
  obtain ⟨hcslen, hf1⟩ := mapOption_sound _ p cs hcs
  have hcsrange : ∀ co ∈ cs, CoordInRange co := by
    intro co hco
    obtain ⟨ch, _, hch⟩ := mapOption_mem_right _ p cs hcs co hco
    exact getCoordinate_inRange hk hch
  obtain ⟨enc, henc⟩ : ∃ enc, getEncryptedCoordinates cs = some enc :=
    ⟨_, (frac_defrac cs).1⟩
  have hencrange : ∀ co ∈ enc, CoordInRange co := frac_inRange hcsrange henc
  have henclen : enc.length = cs.length := frac_length henc
  obtain ⟨q, hq⟩ := mapOption_complete (getCharFromCoordinate (grid25 k)) enc
    (fun co hco => by
      obtain ⟨ch, hch, -⟩ := getChar_inRange hk (hencrange co hco)
      rw [hch]
      rfl)
  obtain ⟨hqlen, hf2⟩ := mapOption_sound _ enc q hq
  refine ⟨cs, enc, q, hcs, henc, hq, ?_, by omega, ?_, hcsrange, hencrange, hf1, hf2⟩
  · simp only [encryptPeriod, hcs, Option.some_bind, henc, coordinatesToMessage, hq]
  · intro ch hch
    obtain ⟨co, hco, hchco⟩ := mapOption_mem_right _ enc q hq ch hch
    exact getChar_mem hk (hencrange co hco) hchco

theorem encryptPeriod_roundtrip {k : List Char} (hk : k.length = 25) (hnd : k.Nodup)
    {p : List Char} (hp : ∀ ch ∈ p, ch ∈ k) :
    ∃ q, encryptPeriod (grid25 k) p = some q ∧ q.length = p.length ∧
      (∀ ch ∈ q, ch ∈ k) ∧ decryptPeriod (grid25 k) q = some p := by
  obtain ⟨cs, enc, q, hcs, henc, hctm, hep, hlen, hqmem, hcsrange, hencrange, hf1, hf2⟩ :=
    encryptPeriod_full hk hp
  refine ⟨q, hep, hlen, hqmem, ?_⟩
  have hqcoords : mapOption (getCoordinate (grid25 k)) q = some enc := by
    apply mapOption_of_forall₂
    apply forall₂_imp_of_mem hf2
    intro co hco ch _ h
    exact getCoordinate_after_getChar hk hnd (hencrange co hco) h
  have hdef : getDecryptedCoordinates enc = cs := (frac_defrac cs).2 enc henc
  have hback : coordinatesToMessage (grid25 k) cs = some p := by
    apply mapOption_of_forall₂
    apply forall₂_imp_of_mem hf1
    intro ch hch co _ h
    exact getChar_after_getCoordinate hk (hp ch hch) h
  simp only [decryptPeriod, hqcoords, Option.some_bind, hdef, hback]

theorem decryptPeriod_strong {k : List Char} (hk : k.length = 25) {p : List Char}
    (hp : ∀ ch ∈ p, ch ∈ k) :
    ∃ q, decryptPeriod (grid25 k) p = some q ∧ q.length = p.length := by
  obtain ⟨cs, hcs⟩ := mapOption_complete (getCoordinate (grid25 k)) p
    (fun ch hch => getCoordinate_isSome hk (hp ch hch))
  obtain ⟨hcslen, -⟩ := mapOption_sound _ p cs hcs
  have hcsrange : ∀ co ∈ cs, CoordInRange co := by
    intro co hco
    obtain ⟨ch, _, hch⟩ := mapOption_mem_right _ p cs hcs co hco
    exact getCoordinate_inRange hk hch
  have hdecrange := defrac_inRange hcsrange
  have hdeclen := getDecryptedCoordinates_length cs
  obtain ⟨q, hq⟩ := mapOption_complete (getCharFromCoordinate (grid25 k))
    (getDecryptedCoordinates cs)
    (fun co hco => by
      obtain ⟨ch, hch, -⟩ := getChar_inRange hk (hdecrange co hco)
      rw [hch]
      rfl)
  obtain ⟨hqlen, -⟩ := mapOption_sound _ _ q hq
  refine ⟨q, ?_, by omega⟩
  simp only [decryptPeriod, hcs, Option.some_bind, coordinatesToMessage, hq]

/-! ## Message-level behaviour -/

theorem encryptMessage_roundtrip {key : List Char} {g : List (List Char)}
    (hpps : processPolybiusSquare key = some g) (hnd : (cleanKey key).Nodup)
    {per : Nat} (hper : 1 ≤ per) {m : List Char}
    (hm : ∀ ch ∈ cleanString m, ch ∈ cleanKey key) :
    ∃ cipher, encryptMessage g per m = some cipher ∧
      cipher.length = (cleanString m).length ∧
      decryptMessage g per cipher = some (cleanString m) := by
  obtain ⟨hk, rfl⟩ := pps_some hpps
  have hflat := wrap_flatten per hper (cleanString m)
  have hshape := wrap_shape per hper (cleanString m)
  have hchunkmem : ∀ p ∈ wrap per (cleanString m), ∀ ch ∈ p, ch ∈ cleanKey key := by
    intro p hp ch hch
    apply hm
    rw [← hflat]
    exact List.mem_flatten.mpr ⟨p, hp, hch⟩
  obtain ⟨qs, hqs, hall⟩ := mapOption_complete_strong (encryptPeriod (grid25 (cleanKey key)))
    (fun p q => q.length = p.length ∧ decryptPeriod (grid25 (cleanKey key)) q = some p)
    (wrap per (cleanString m))
    (fun p hp => by
      obtain ⟨q, h1, h2, _, h4⟩ := encryptPeriod_roundtrip hk hnd (hchunkmem p hp)
      exact ⟨q, h1, h2, h4⟩)
  have hlens : List.Forall₂ (fun p q => q.length = p.length) (wrap per (cleanString m)) qs :=
    hall.imp (fun a b h => h.1)
  refine ⟨qs.flatten, ?_, ?_, ?_⟩
  · simp only [encryptMessage, hqs, Option.map_some']
  · rw [flatten_length_of_forall₂ hlens, hflat]
  · have hqshape : chunkShape per qs := chunkShape_of_forall₂ per hlens hshape
    have hwrapqs : wrap per qs.flatten = qs := wrap_of_chunkShape per hper qs hqshape
    have hdec : mapOption (decryptPeriod (grid25 (cleanKey key))) qs =
        some (wrap per (cleanString m)) :=
      mapOption_of_forall₂ _ (hall.imp (fun a b h => h.2))
    simp only [decryptMessage, hwrapqs, hdec, Option.map_some']
    rw [hflat]

theorem encryptMessage_length_spec {key : List Char} {g : List (List Char)}
    (hpps : processPolybiusSquare key = some g) {per : Nat} (hper : 1 ≤ per)
    {m : List Char} (hm : ∀ ch ∈ cleanString m, ch ∈ cleanKey key) :
    ∃ cipher, encryptMessage g per m = some cipher ∧
      cipher.length = (cleanString m).length := by
  obtain ⟨hk, rfl⟩ := pps_some hpps
  have hflat := wrap_flatten per hper (cleanString m)
  have hchunkmem : ∀ p ∈ wrap per (cleanString m), ∀ ch ∈ p, ch ∈ cleanKey key := by
    intro p hp ch hch
    apply hm
    rw [← hflat]
    exact List.mem_flatten.mpr ⟨p, hp, hch⟩
  obtain ⟨qs, hqs, hall⟩ := mapOption_complete_strong (encryptPeriod (grid25 (cleanKey key)))
    (fun p q => q.length = p.length) (wrap per (cleanString m))
    (fun p hp => by
      obtain ⟨-, -, q, -, -, -, h4, h5, -⟩ := encryptPeriod_full hk (hchunkmem p hp)
      exact ⟨q, h4, h5⟩)
  refine ⟨qs.flatten, ?_, ?_⟩
  · simp only [encryptMessage, hqs, Option.map_some']
  · rw [flatten_length_of_forall₂ hall, hflat]

theorem decryptMessage_length_spec {key : List Char} {g : List (List Char)}
    (hpps : processPolybiusSquare key = some g) {per : Nat} (hper : 1 ≤ per)
    {c : List Char} (hc : ∀ ch ∈ c, ch ∈ cleanKey key) :
    ∃ plain, decryptMessage g per c = some plain ∧ plain.length = c.length := by
  obtain ⟨hk, rfl⟩ := pps_some hpps
  have hflat := wrap_flatten per hper c
  have hchunkmem : ∀ p ∈ wrap per c, ∀ ch ∈ p, ch ∈ cleanKey key := by
    intro p hp ch hch
    apply hc
    rw [← hflat]
    exact List.mem_flatten.mpr ⟨p, hp, hch⟩
  obtain ⟨qs, hqs, hall⟩ := mapOption_complete_strong (decryptPeriod (grid25 (cleanKey key)))
    (fun p q => q.length = p.length) (wrap per c)
    (fun p hp => decryptPeriod_strong hk (hchunkmem p hp))
  refine ⟨qs.flatten, ?_, ?_⟩
  · simp only [decryptMessage, hqs, Option.map_some']
  · rw [flatten_length_of_forall₂ hall, hflat]

theorem period_single {k : List Char} (hk : k.length = 25) {ch : Char} (hch : ch ∈ k) :
    encryptPeriod (grid25 k) [ch] = some [ch] ∧
    decryptPeriod (grid25 k) [ch] = some [ch] := by
  obtain ⟨co, hco⟩ := Option.isSome_iff_exists.mp (getCoordinate_isSome hk hch)
  obtain ⟨cr, cc⟩ := co
  have hchar := getChar_after_getCoordinate hk hch hco
  have hmap : mapOption (getCoordinate (grid25 k)) [ch] = some [⟨cr, cc⟩] :=
    mapOption_cons_some _ ch [] hco rfl
  have hfrac : getEncryptedCoordinates [⟨cr, cc⟩] = some [⟨cr, cc⟩] := by
    have h := (frac_defrac [(⟨cr, cc⟩ : Coordinate)]).1
    simpa [Coordinate.pairUp_cons, Coordinate.pairUp_nil] using h
  have hdefrac : getDecryptedCoordinates [⟨cr, cc⟩] = [⟨cr, cc⟩] := by
    simp [getDecryptedCoordinates, Coordinate.to_list]
  have hctm : coordinatesToMessage (grid25 k) [⟨cr, cc⟩] = some [ch] := by
    show mapOption (getCharFromCoordinate (grid25 k)) [⟨cr, cc⟩] = some [ch]
    exact mapOption_cons_some (getCharFromCoordinate (grid25 k)) ⟨cr, cc⟩ [] hchar rfl
  constructor
  · simp only [encryptPeriod, hmap, Option.some_bind, hfrac, hctm]
  · simp only [decryptPeriod, hmap, Option.some_bind, hdefrac, hctm]

/-! ## Last helpers for the claims -/

theorem map_id_of_mem {f : Char → Char} :
    ∀ l : List Char, (∀ a ∈ l, f a = a) → l.map f = l
  | [], _ => rfl
  | a :: as, h => by
    rw [List.map_cons, h a (List.mem_cons_self _ _),
      map_id_of_mem as (fun x hx => h x (List.mem_cons_of_mem _ hx))]

theorem filter_true_of_mem {p : Char → Bool} :
    ∀ l : List Char, (∀ a ∈ l, p a = true) → l.filter p = l
  | [], _ => rfl
  | a :: as, h => by
    rw [List.filter_cons, if_pos (h a (List.mem_cons_self _ _)),
      filter_true_of_mem as (fun x hx => h x (List.mem_cons_of_mem _ hx))]

theorem ne_space_of_isAlphanum {c : Char} (h : c.isAlphanum = true) : c ≠ ' ' := by
  intro habs
  rw [habs] at h
  exact absurd h (by decide)

/-- A normalised string (`cleanString` output) is a fixed point of `cleanString`. -/
theorem cleanString_fixed :
    ∀ L : List Char, (∀ c ∈ L, c.isAlphanum = true ∧ c.toUpper = c ∧ c ≠ 'J') →
      cleanString L = L := by
  intro L hL
  show ((((L.filter (fun c => c ≠ ' ')).map Char.toUpper).map
      (fun c => if c = 'J' then 'I' else c)).filter (fun c => c.isAlphanum)) = L
  rw [filter_true_of_mem L (fun a ha => by
    simp only [decide_eq_true_eq]
    exact ne_space_of_isAlphanum (hL a ha).1)]
  rw [map_id_of_mem L (fun a ha => (hL a ha).2.1)]
  rw [map_id_of_mem L (fun a ha => if_neg (hL a ha).2.2)]
  exact filter_true_of_mem L (fun a ha => (hL a ha).1)

/-- A 25-letter duplicate-free key drawn from the 25-letter alphabet covers it. -/
theorem alphabet_subset {k : List Char} (hk : k.length = 25) (hnd : k.Nodup)
    (hsub : ∀ c ∈ k, c ∈ ALPHABET) : ∀ c ∈ ALPHABET, c ∈ k := by
  intro c hc
  have h1 : k.toFinset ⊆ ALPHABET.toFinset := fun x hx =>
    List.mem_toFinset.mpr (hsub x (List.mem_toFinset.mp hx))
  have hcard1 : k.toFinset.card = 25 := by
    rw [List.toFinset_card_of_nodup hnd, hk]
  have hcard2 : ALPHABET.toFinset.card = 25 := by decide
  have heq : k.toFinset = ALPHABET.toFinset :=
    Finset.eq_of_subset_of_card_le h1 (by omega)
  rw [← List.mem_toFinset, heq]
  exact List.mem_toFinset.mpr hc

/-! ## Claims -/

/-- C1 (counterexample): the round trip fails as universally stated.  The key
`AABCDEFGHIKLMNOPQRSTUVWXY` is accepted by square construction (25 characters
after cleaning) but holds the letter `A` twice; with period 5 the letters-only
message `CE` encrypts to `AP` and decrypts back to `CA`, not `CE`. -/
theorem roundtrip_fails_for_duplicate_key :
    (processPolybiusSquare ("AABCDEFGHIKLMNOPQRSTUVWXY".toList)).isSome = true ∧
    (∀ c ∈ ("CE".toList), c.isAlpha = true) ∧ 0 < 5 ∧
    ¬ ((processPolybiusSquare ("AABCDEFGHIKLMNOPQRSTUVWXY".toList)).bind
        (fun g => (encryptMessage g 5 ("CE".toList)).bind (decryptMessage g 5)) =
      some (cleanString ("CE".toList))) := by
  decide

/-- C1 (amended): for every message containing only letters, every square built
from a key whose cleaned form is 25 distinct letters of the 25-letter alphabet,
and every positive period, decrypting the encryption returns the cleaned
message. -/
theorem roundtrip_for_distinct_letter_key (key m : List Char)
    (g : List (List Char)) (per : Nat)
    (hg : processPolybiusSquare key = some g)
    (hnd : (cleanKey key).Nodup)
    (hletters : ∀ c ∈ cleanKey key, c ∈ ALPHABET)
    (hm : ∀ c ∈ m, c.isAlpha = true)
    (hper : 0 < per) :
    (encryptMessage g per m).bind (decryptMessage g per) = some (cleanString m) := by
  have hk : (cleanKey key).length = 25 := (pps_some hg).1
  have hcover := alphabet_subset hk hnd hletters
  have hm2 : ∀ ch ∈ cleanString m, ch ∈ cleanKey key := fun ch hch =>
    hcover ch (cleanString_letters hm ch hch)
  obtain ⟨cipher, h1, -, h3⟩ := encryptMessage_roundtrip hg hnd hper hm2
  rw [h1, Option.some_bind]
  exact h3

/-- C1 (witness): the amended round trip holds concretely for the default key
`ABCDEFGHIJKLMNOPQRSTUVWXYZ`, the message `HELLO` and period 5. -/
theorem roundtrip_for_distinct_letter_key_witness :
    processPolybiusSquare ("ABCDEFGHIJKLMNOPQRSTUVWXYZ".toList) =
      some [['A','B','C','D','E'], ['F','G','H','I','K'], ['L','M','N','O','P'],
            ['Q','R','S','T','U'], ['V','W','X','Y','Z']] ∧
    (encryptMessage
        [['A','B','C','D','E'], ['F','G','H','I','K'], ['L','M','N','O','P'],
         ['Q','R','S','T','U'], ['V','W','X','Y','Z']] 5 ("HELLO".toList)).bind
      (decryptMessage
        [['A','B','C','D','E'], ['F','G','H','I','K'], ['L','M','N','O','P'],
         ['Q','R','S','T','U'], ['V','W','X','Y','Z']] 5) =
      some (cleanString ("HELLO".toList)) :=
  ⟨by decide,
   roundtrip_for_distinct_letter_key ("ABCDEFGHIJKLMNOPQRSTUVWXYZ".toList)
     ("HELLO".toList) _ 5 (by decide) (by decide) (by decide) (by decide)
     (by decide)⟩

/-- C2: defractionation undoes fractionation on every coordinate sequence whose
rows and columns lie in `[0,4]` (the proof needs no range assumption at all). -/
theorem defrac_frac_id (cs : List Coordinate)
    (hrange : ∀ co ∈ cs, 0 ≤ co.row ∧ co.row ≤ 4 ∧ 0 ≤ co.col ∧ co.col ≤ 4) :
    (getEncryptedCoordinates cs).map getDecryptedCoordinates = some cs := by
  rw [(frac_defrac cs).1, Option.map_some']
  exact congrArg some ((frac_defrac cs).2 _ (frac_defrac cs).1)

/-- C2 (witness): the inverse property at the concrete sequence
`[(0,1), (2,3), (4,4)]`. -/
theorem defrac_frac_id_witness :
    (getEncryptedCoordinates [⟨0, 1⟩, ⟨2, 3⟩, ⟨4, 4⟩]).map getDecryptedCoordinates =
      some [⟨0, 1⟩, ⟨2, 3⟩, ⟨4, 4⟩] :=
  defrac_frac_id [⟨0, 1⟩, ⟨2, 3⟩, ⟨4, 4⟩] (by decide)

/-- C3 (code bug): normalization keeps digits — the regex class strips only
non-word characters and the underscore, and digits are word characters — so the
digit `1` reaches the coordinate lookup, which finds nothing, and encryption
crashes (`none`) instead of succeeding, contradicting the claim and the code's
own comment that only alphabet characters remain. -/
theorem encrypt_crashes_on_digit :
    cleanString ['1'] = ['1'] ∧
    (processPolybiusSquare ("ABCDEFGHIJKLMNOPQRSTUVWXYZ".toList)).isSome = true ∧
    (processPolybiusSquare ("ABCDEFGHIJKLMNOPQRSTUVWXYZ".toList)).bind
      (fun g => encryptMessage g 5 ['1']) = none := by
  decide

/-- C4 (counterexample): looking up a character absent from a validly built
square does not raise a `LookupError`: the scan falls off the end and the
function returns Python `None` (modelled as the value `none`, not as an
exception) — here for `J`, which a cleaned key never contains. -/
theorem lookup_absent_returns_none :
    (processPolybiusSquare ("ABCDEFGHIJKLMNOPQRSTUVWXYZ".toList)).isSome = true ∧
    (processPolybiusSquare ("ABCDEFGHIJKLMNOPQRSTUVWXYZ".toList)).bind
      (fun g => getCoordinate g 'J') = none := by
  decide

/-- C4 (amended): for a square built from a valid key, `_get_coordinate`
returns `None` (no exception) for every absent character, and for every present
character it returns the (row, column) of the first matching cell in row-major
scan order — the position of the first occurrence in the cleaned key string. -/
theorem lookup_first_match (key : List Char) (g : List (List Char)) (ch : Char)
    (hg : processPolybiusSquare key = some g) :
    (ch ∉ cleanKey key → getCoordinate g ch = none) ∧
    (ch ∈ cleanKey key →
      getCoordinate g ch =
        some ⟨(((cleanKey key).indexOf ch / 5 : Nat) : Int),
              (((cleanKey key).indexOf ch % 5 : Nat) : Int)⟩) := by
  obtain ⟨hk, rfl⟩ := pps_some hg
  constructor
  · intro hnm
    rw [getCoordinate_spec hk, if_neg hnm]
  · intro hm
    rw [getCoordinate_spec hk, if_pos hm]

/-- C4 (witness): the first-match characterisation at the default key and the
letter `X`. -/
theorem lookup_first_match_witness :
    ('X' ∉ cleanKey ("ABCDEFGHIJKLMNOPQRSTUVWXYZ".toList) →
       getCoordinate
         [['A','B','C','D','E'], ['F','G','H','I','K'], ['L','M','N','O','P'],
          ['Q','R','S','T','U'], ['V','W','X','Y','Z']] 'X' = none) ∧
    ('X' ∈ cleanKey ("ABCDEFGHIJKLMNOPQRSTUVWXYZ".toList) →
       getCoordinate
         [['A','B','C','D','E'], ['F','G','H','I','K'], ['L','M','N','O','P'],
          ['Q','R','S','T','U'], ['V','W','X','Y','Z']] 'X' =
         some ⟨((((cleanKey ("ABCDEFGHIJKLMNOPQRSTUVWXYZ".toList)).indexOf 'X' / 5 :
             Nat) : Int)),
               ((((cleanKey ("ABCDEFGHIJKLMNOPQRSTUVWXYZ".toList)).indexOf 'X' % 5 :
             Nat) : Int))⟩) :=
  lookup_first_match ("ABCDEFGHIJKLMNOPQRSTUVWXYZ".toList) _ 'X' (by decide)

/-- C5: square construction succeeds exactly when the cleaned key has 25
characters, and fails (no partial square) otherwise; in particular the key
`short` is rejected. -/
theorem square_validation :
    (∀ key : List Char,
      (processPolybiusSquare key).isSome = true ↔ (cleanKey key).length = 25) ∧
    processPolybiusSquare ("short".toList) = none := by
  constructor
  · intro key
    constructor
    · intro h
      obtain ⟨g, hg⟩ := Option.isSome_iff_exists.mp h
      exact (pps_some hg).1
    · intro h
      rw [pps_eq h]
      rfl
  · decide

/-- C6: when every character of the cleaned message lies in the square's
alphabet, encryption succeeds with output length equal to the cleaned input
length; and decryption of any ciphertext made of square letters succeeds with
unchanged length. -/
theorem length_preservation (key m c : List Char) (g : List (List Char)) (per : Nat)
    (hg : processPolybiusSquare key = some g) (hper : 0 < per)
    (hm : ∀ ch ∈ cleanString m, ch ∈ cleanKey key)
    (hc : ∀ ch ∈ c, ch ∈ cleanKey key) :
    (∃ out, encryptMessage g per m = some out ∧ out.length = (cleanString m).length) ∧
    (∃ out2, decryptMessage g per c = some out2 ∧ out2.length = c.length) :=
  ⟨encryptMessage_length_spec hg hper hm, decryptMessage_length_spec hg hper hc⟩

/-- C6 (witness): length preservation for the default key, the message
`hello world` and the ciphertext `XYZAB`, period 5. -/
theorem length_preservation_witness :
    (∃ out, encryptMessage
        [['A','B','C','D','E'], ['F','G','H','I','K'], ['L','M','N','O','P'],
         ['Q','R','S','T','U'], ['V','W','X','Y','Z']] 5 ("hello world".toList) =
        some out ∧ out.length = (cleanString ("hello world".toList)).length) ∧
    (∃ out2, decryptMessage
        [['A','B','C','D','E'], ['F','G','H','I','K'], ['L','M','N','O','P'],
         ['Q','R','S','T','U'], ['V','W','X','Y','Z']] 5 ("XYZAB".toList) =
        some out2 ∧ out2.length = ("XYZAB".toList).length) :=
  length_preservation ("ABCDEFGHIJKLMNOPQRSTUVWXYZ".toList) ("hello world".toList)
    ("XYZAB".toList) _ 5 (by decide) (by decide) (by decide) (by decide)

/-- C7: normalization is idempotent — cleaning an already cleaned string
changes nothing. -/
theorem clean_idempotent : ∀ s : List Char, cleanString (cleanString s) = cleanString s :=
  fun s => cleanString_fixed (cleanString s) (cleanString_mem)

/-- C8: with a positive period, segmentation cuts a normalized message into
consecutive chunks whose concatenation is the message, every chunk but the last
of length exactly `per` and the last of length 1 to `per`; a 14-character
message with period 5 yields chunk lengths `[5, 5, 4]`. -/
theorem segmentation (per : Nat) (s : List Char) (hper : 0 < per)
    (hs : cleanString s = s) :
    (wrap per s).flatten = s ∧ chunkShape per (wrap per s) ∧
    (s.length = 14 → (wrap 5 s).map List.length = [5, 5, 4]) := by
  refine ⟨wrap_flatten per hper s, wrap_shape per hper s, ?_⟩
  intro h14
  have hcons : ∀ t : List Char, t ≠ [] → wrap 5 t = t.take 5 :: wrap 5 (t.drop 5) := by
    intro t ht
    cases t with
    | nil => exact absurd rfl ht
    | cons x xs => exact wrap_cons 5 (by omega) x xs
  have l1 : (s.drop 5).length = 9 := by rw [List.length_drop, h14]
  have l2 : ((s.drop 5).drop 5).length = 4 := by rw [List.length_drop, l1]
  have ne0 : s ≠ [] := by
    intro h
    rw [h] at h14
    exact absurd h14 (by decide)
  have ne1 : s.drop 5 ≠ [] := by
    intro h
    rw [h] at l1
    exact absurd l1 (by decide)
  have ne2 : (s.drop 5).drop 5 ≠ [] := by
    intro h
    rw [h] at l2
    exact absurd l2 (by decide)
  have l3 : ((s.drop 5).drop 5).drop 5 = [] := List.drop_eq_nil_of_le (by omega)
  rw [hcons s ne0, hcons (s.drop 5) ne1, hcons ((s.drop 5).drop 5) ne2, l3, wrap_nil]
  simp only [List.map_cons, List.map_nil, List.length_take, l1, l2, h14]
  decide

/-- C8 (witness): segmentation at period 5 of the normalized 14-letter message
`ABCDEFGHIKLMNO`. -/
theorem segmentation_witness :
    (wrap 5 ("ABCDEFGHIKLMNO".toList)).flatten = "ABCDEFGHIKLMNO".toList ∧
    chunkShape 5 (wrap 5 ("ABCDEFGHIKLMNO".toList)) ∧
    (("ABCDEFGHIKLMNO".toList).length = 14 →
      (wrap 5 ("ABCDEFGHIKLMNO".toList)).map List.length = [5, 5, 4]) :=
  segmentation 5 ("ABCDEFGHIKLMNO".toList) (by decide) (by decide)

/-- C9: fractionation and defractionation are the identity on one-coordinate
sequences, and a single-letter period (any letter of a validly built square)
encrypts and decrypts to itself. -/
theorem single_period_identity (c : Coordinate) (key : List Char)
    (g : List (List Char)) (ch : Char)
    (hg : processPolybiusSquare key = some g) (hch : ch ∈ cleanKey key) :
    getEncryptedCoordinates [c] = some [c] ∧ getDecryptedCoordinates [c] = [c] ∧
    encryptPeriod g [ch] = some [ch] ∧ decryptPeriod g [ch] = some [ch] := by
  obtain ⟨hk, rfl⟩ := pps_some hg
  obtain ⟨cr, cc⟩ := c
  refine ⟨?_, ?_, (period_single hk hch).1, (period_single hk hch).2⟩
  · have h := (frac_defrac [(⟨cr, cc⟩ : Coordinate)]).1
    simpa [Coordinate.pairUp_cons, Coordinate.pairUp_nil] using h
  · simp [getDecryptedCoordinates, Coordinate.to_list]

/-- C9 (witness): the single-coordinate and single-letter identity at the
coordinate `(2,3)` and the letter `Q` of the default square. -/
theorem single_period_identity_witness :
    getEncryptedCoordinates [⟨2, 3⟩] = some [⟨2, 3⟩] ∧
    getDecryptedCoordinates [⟨2, 3⟩] = [⟨2, 3⟩] ∧
    encryptPeriod
      [['A','B','C','D','E'], ['F','G','H','I','K'], ['L','M','N','O','P'],
       ['Q','R','S','T','U'], ['V','W','X','Y','Z']] ['Q'] = some ['Q'] ∧
    decryptPeriod
      [['A','B','C','D','E'], ['F','G','H','I','K'], ['L','M','N','O','P'],
       ['Q','R','S','T','U'], ['V','W','X','Y','Z']] ['Q'] = some ['Q'] :=
  single_period_identity ⟨2, 3⟩ ("ABCDEFGHIJKLMNOPQRSTUVWXYZ".toList) _ 'Q'
    (by decide) (by decide)

/-- C10: `from_list` fails exactly on odd-length input; on even-length input it
returns half as many coordinates, pairing consecutive elements in order, and
`to_list` is its left inverse. -/
theorem from_list_to_list :
    ∀ xs : List Int,
      (Coordinate.from_list xs = none ↔ xs.length % 2 = 1) ∧
      (∀ l, Coordinate.from_list xs = some l →
        l.length = xs.length / 2 ∧
        (∀ i : Nat, l.get? i =
          (xs.get? (2 * i)).bind fun a =>
            (xs.get? (2 * i + 1)).map fun b => (⟨a, b⟩ : Coordinate)) ∧
        Coordinate.to_list l = xs) := by
  intro xs
  constructor
  · rw [Coordinate.from_list]
    by_cases h : xs.length % 2 ≠ 0
    · rw [if_pos h]
      exact ⟨fun _ => by omega, fun _ => rfl⟩
    · rw [if_neg h]
      exact ⟨fun habs => absurd habs (by simp), fun h1 => absurd h1 (by omega)⟩
  · intro l hl
    rw [Coordinate.from_list] at hl
    by_cases h : xs.length % 2 ≠ 0
    · rw [if_pos h] at hl
      exact absurd hl (by simp)
    · rw [if_neg h] at hl
      have hl2 : l = Coordinate.pairUp xs := (Option.some.inj hl).symm
      subst hl2
      exact ⟨Coordinate.pairUp_length xs,
        fun i => Coordinate.pairUp_get? xs i (by omega),
        Coordinate.to_list_pairUp xs (by omega)⟩

/-- C10 (witness): `from_list` on `[3, 5, 2, 6]` gives `[(3,5), (2,6)]`, whose
`to_list` restores the input. -/
theorem from_list_to_list_witness :
    ([(⟨3, 5⟩ : Coordinate), ⟨2, 6⟩]).length = ([3, 5, 2, 6] : List Int).length / 2 ∧
    (∀ i : Nat, ([(⟨3, 5⟩ : Coordinate), ⟨2, 6⟩]).get? i =
      (([3, 5, 2, 6] : List Int).get? (2 * i)).bind fun a =>
        (([3, 5, 2, 6] : List Int).get? (2 * i + 1)).map fun b => (⟨a, b⟩ : Coordinate)) ∧
    Coordinate.to_list [⟨3, 5⟩, ⟨2, 6⟩] = [3, 5, 2, 6] :=
  (from_list_to_list [3, 5, 2, 6]).2 [⟨3, 5⟩, ⟨2, 6⟩] (by decide)

end Bifid
